import Mathlib

/-!
# mxj: encoding an arbitrary value as XML (anyxml.go)

A shallow embedding of the four entry points of `anyxml.go`
(`AnyXml`, `AnyXmlIndent`, `AnyXmlIndentByte`, `AnyXmlIndentByteSpecial`)
and the properties of the top-level dispatch they implement.

Conventions of the embedding:

* a Go `interface{}` value is a `Value`; a `map[string]interface{}` is an
  association list (only its length and, for a one-entry map, its single entry
  are ever inspected by `anyxml.go`);
* Go strings, `[]byte` results and `bytes.Buffer` contents are all `String`
  (the conversions `[]byte(ss)` and `buffer.Bytes()` keep the content);
* a Go `error` is `Option String`, with `none` for `nil`;
* a result `none` of an entry point is a run-time panic, `some (b, err)` is a
  normal return of the pair `b, err`;
* the functions `anyxml.go` calls but does not define (`mapToXmlIndent` and its
  two buffer variants, `checkKey`, the `Map` methods, `DefaultRootTag`) and the
  standard-library marshaller are the fields of an `Env`; the general theorems
  hold for every `Env`.
-/

namespace Mxj

/-! ## Data model -/

/-- A Go `error` value: `none` is `nil`, `some msg` an error with that message. -/
abbrev GoError := Option String

/-- A dynamically typed Go value (`interface{}`): scalars, `[]interface{}`,
`map[string]interface{}` and values of struct kind. A `float64` is carried as the
text `%v` prints for it, the only way the encoder looks at it. -/
inductive Value where
  | nil
  | bool (b : Bool)
  | int (n : Int)
  | float64 (text : String)
  | string (s : String)
  | slice (vs : List Value)
  | map (m : List (String × Value))
  | struct (name : String)

/-- The kinds of `reflect.Kind` that the values of `Value` have. -/
inductive Kind where
  | Bool
  | Int
  | Float64
  | String
  | Slice
  | Map
  | Struct
  deriving DecidableEq, Repr

/-- The call `reflect.TypeOf(v)`, a type being identified with its kind. For the nil
interface value `reflect.TypeOf` returns the nil `Type`, here `none`. -/
def TypeOf : Value → Option Kind
  | .nil => none
  | .bool _ => some Kind.Bool
  | .int _ => some Kind.Int
  | .float64 _ => some Kind.Float64
  | .string _ => some Kind.String
  | .slice _ => some Kind.Slice
  | .map _ => some Kind.Map
  | .struct _ => some Kind.Struct

/-- Modelled from the spec: the type `pretty`, whose declaration is not in
`anyxml.go`. It is the indentation state of the spec: `anyxml.go` reads and writes its
fields `indent` (the indent unit), `padding` (the line padding) and `start`; `depth` is
the nesting depth that `Indent` advances. -/
structure pretty where
  indent : String
  padding : String
  depth : Nat
  start : Nat

/-- The zero value `new(pretty)`. -/
def pretty.new : pretty := ⟨"", "", 0, 0⟩

/-- Modelled from the spec: the method `(*pretty).Indent`, whose body is not in
`anyxml.go`. It is the operation `enter()` of the indentation state: the depth
goes up by one. -/
def pretty.Indent (p : pretty) : pretty := { p with depth := p.depth + 1 }

/-- The variables an encoder call works on: the output written so far (`*s`, or the
buffer), the indentation state `*p`, and the error it returns. -/
structure Enc where
  s : String
  p : pretty
  err : GoError

/-- The constant `DefaultElementTag`. -/
def DefaultElementTag : String := "element"

/-- What `anyxml.go` uses without defining it. The encoders take the output so far
and the indentation state and return both as they leave them, with their error. -/
structure Env where
  DefaultRootTag : String
  checkKey : String → String
  mapToXmlIndent : Bool → String → String → Value → pretty → Enc
  mapToXmlIndentByte : Bool → String → String → Value → pretty → Enc
  mapToXmlIndentByteSpecial : Bool → String → String → Value → pretty → Bool → Enc
  Xml : List (String × Value) → String → String × GoError
  XmlIndent : List (String × Value) → String → String → String → String × GoError
  XmlIndentByte : List (String × Value) → String → String → String → String × GoError
  XmlIndentByteSpecial : List (String × Value) → String → String → String → String × GoError
  xmlMarshal : Value → String × GoError
  xmlMarshalIndent : Value → String → String → String × GoError

/-- The method `(*bytes.Buffer).Write`: the data is appended and the error is always
`nil`. -/
def bufferWrite (buffer data : String) : String × GoError := (buffer ++ data, none)

/-! ## The entry points -/

/-- The loop `for _, vv := range v.([]interface{}) { body; if err != nil { break } }`
on the variables `*s` (or the buffer), `*p` and `err`. -/
def forRange (body : Value → Enc → Enc) : List Value → Enc → Enc
  | [], st => st
  | vv :: rest, st =>
    match (body vv st).err with
    | some _ => body vv st
    | none => forRange body rest (body vv st)

/-- The body of the loop of `AnyXml` (lines 84-96). -/
def AnyXml.body (E : Env) (et : String) (vv : Value) (st : Enc) : Enc :=
  match vv with
  | .map m =>
    if m.length = 1 then
      m.foldl (fun acc kv => E.mapToXmlIndent false acc.s kv.1 kv.2 acc.p) st
    else
      E.mapToXmlIndent false st.s et vv st.p
  | _ => E.mapToXmlIndent false st.s et vv st.p

/-- The function `AnyXml(v, tags...)`. -/
def AnyXml (E : Env) (v : Value) (tags : List String) : Option (String × GoError) :=
  match TypeOf v with
  | none => none
  | some k =>
    if k = Kind.Struct then some (E.xmlMarshal v)
    else
      let rt := if tags.length = 1 ∨ tags.length = 2 then tags.getD 0 "" else E.DefaultRootTag
      let et := if tags.length = 2 then tags.getD 1 "" else DefaultElementTag
      match v with
      | .slice vs =>
        let ss := "<" ++ rt ++ ">"
        let st := forRange (AnyXml.body E et) vs ⟨"", pretty.new, none⟩
        some (ss ++ (st.s ++ "</" ++ rt ++ ">"), st.err)
      | .map m => some (E.Xml m rt)
      | _ =>
        let r := E.mapToXmlIndent false "" rt v pretty.new
        some (r.s, r.err)

/-- The body of the loop of `AnyXmlIndent` (lines 148-163). -/
def AnyXmlIndent.body (E : Env) (et : String) (vv : Value) (st : Enc) : Enc :=
  match vv with
  | .map m =>
    if m.length = 1 then
      m.foldl (fun acc kv => E.mapToXmlIndent true acc.s (E.checkKey kv.1) kv.2 acc.p) st
    else
      let r := E.mapToXmlIndent true st.s et vv { st.p with start := 1 }
      { r with s := r.s ++ "\n" }
  | _ => E.mapToXmlIndent true st.s et vv { st.p with start := 0 }

/-- The function `AnyXmlIndent(v, prefix, indent, tags...)`. -/
def AnyXmlIndent (E : Env) (v : Value) (pfx indent : String) (tags : List String) :
    Option (String × GoError) :=
  match TypeOf v with
  | none => none
  | some k =>
    if k = Kind.Struct then some (E.xmlMarshalIndent v pfx indent)
    else
      let p : pretty := { pretty.new with indent := indent, padding := pfx }
      let rt := if tags.length = 1 ∨ tags.length = 2 then tags.getD 0 "" else E.DefaultRootTag
      let et := if tags.length = 2 then tags.getD 1 "" else DefaultElementTag
      let rt := E.checkKey rt
      let et := E.checkKey et
      match v with
      | .slice vs =>
        let ss := "<" ++ rt ++ ">\n"
        let st := forRange (AnyXmlIndent.body E et) vs ⟨"", p.Indent, none⟩
        some (ss ++ (st.s ++ "</" ++ rt ++ ">"), st.err)
      | .map m => some (E.XmlIndent m pfx indent rt)
      | _ =>
        let r := E.mapToXmlIndent true "" rt v p
        some (r.s, r.err)

/-- The body of the loop of `AnyXmlIndentByte` (lines 209-224). The error of the
encoder is assigned to `err` and then `err` is assigned again from `buffer.Write`. -/
def AnyXmlIndentByte.body (E : Env) (et : String) (vv : Value) (st : Enc) : Enc :=
  match vv with
  | .map m =>
    if m.length = 1 then
      m.foldl (fun acc kv => E.mapToXmlIndentByte true acc.s (E.checkKey kv.1) kv.2 acc.p) st
    else
      let r := E.mapToXmlIndentByte true st.s et vv { st.p with start := 1 }
      let w := bufferWrite r.s "\n"
      { r with s := w.1, err := w.2 }
  | _ => E.mapToXmlIndentByte true st.s et vv { st.p with start := 0 }

/-- The function `AnyXmlIndentByte(v, prefix, indent, tags...)`. -/
def AnyXmlIndentByte (E : Env) (v : Value) (pfx indent : String) (tags : List String) :
    Option (String × GoError) :=
  match TypeOf v with
  | none => none
  | some k =>
    if k = Kind.Struct then some (E.xmlMarshalIndent v pfx indent)
    else
      let p : pretty := { pretty.new with indent := indent, padding := pfx }
      let rt := if tags.length = 1 ∨ tags.length = 2 then tags.getD 0 "" else E.DefaultRootTag
      let et := if tags.length = 2 then tags.getD 1 "" else DefaultElementTag
      let rt := E.checkKey rt
      let et := E.checkKey et
      match v with
      | .slice vs =>
        let w := bufferWrite "" ("<" ++ E.checkKey rt ++ ">\n")
        let st := forRange (AnyXmlIndentByte.body E et) vs ⟨w.1, p.Indent, w.2⟩
        let w2 := bufferWrite st.s ("</" ++ rt ++ ">")
        some (w2.1, st.err)
      | .map m => some (E.XmlIndentByte m pfx indent rt)
      | _ =>
        let r := E.mapToXmlIndentByte true "" rt v p
        some (r.s, r.err)

/-- The body of the loop of `AnyXmlIndentByteSpecial` (lines 269-284). -/
def AnyXmlIndentByteSpecial.body (E : Env) (et : String) (vv : Value) (st : Enc) : Enc :=
  match vv with
  | .map m =>
    if m.length = 1 then
      m.foldl
        (fun acc kv => E.mapToXmlIndentByteSpecial true acc.s (E.checkKey kv.1) kv.2 acc.p true) st
    else
      let r := E.mapToXmlIndentByteSpecial true st.s et vv { st.p with start := 1 } true
      let w := bufferWrite r.s "\n"
      { r with s := w.1, err := w.2 }
  | _ => E.mapToXmlIndentByteSpecial true st.s et vv { st.p with start := 0 } true

/-- The function `AnyXmlIndentByteSpecial(v, prefix, indent, tags...)`. -/
def AnyXmlIndentByteSpecial (E : Env) (v : Value) (pfx indent : String) (tags : List String) :
    Option (String × GoError) :=
  match TypeOf v with
  | none => none
  | some k =>
    if k = Kind.Struct then some (E.xmlMarshalIndent v pfx indent)
    else
      let p : pretty := { pretty.new with indent := indent, padding := pfx }
      let rt := if tags.length = 1 ∨ tags.length = 2 then tags.getD 0 "" else E.DefaultRootTag
      let et := if tags.length = 2 then tags.getD 1 "" else DefaultElementTag
      let rt := E.checkKey rt
      let et := E.checkKey et
      match v with
      | .slice vs =>
        let w := bufferWrite "" ("<" ++ E.checkKey rt ++ ">\n")
        let st := forRange (AnyXmlIndentByteSpecial.body E et) vs ⟨w.1, p.Indent, w.2⟩
        let w2 := bufferWrite st.s ("</" ++ rt ++ ">")
        some (w2.1, st.err)
      | .map m => some (E.XmlIndentByteSpecial m pfx indent rt)
      | _ =>
        let r := E.mapToXmlIndentByteSpecial true "" rt v p true
        some (r.s, r.err)

/-! ## The helpers that are not in anyxml.go, modelled from the spec -/

/-- Modelled from the spec: the ASCII letters of the legal name characters. -/
def isAsciiLetter (c : Char) : Bool :=
  (97 ≤ c.toNat && c.toNat ≤ 122) || (65 ≤ c.toNat && c.toNat ≤ 90)

/-- Modelled from the spec: the ASCII digits of the legal name characters. -/
def isAsciiDigit (c : Char) : Bool := 48 ≤ c.toNat && c.toNat ≤ 57

/-- Modelled from the spec: the Unicode ranges of the legal name characters, here
those from which an XML name may start. -/
def isExtNameStart (c : Char) : Bool :=
  let n := c.toNat
  (0xC0 ≤ n && n ≤ 0xD6) || (0xD8 ≤ n && n ≤ 0xF6) || (0xF8 ≤ n && n ≤ 0x2FF) ||
  (0x370 ≤ n && n ≤ 0x37D) || (0x37F ≤ n && n ≤ 0x1FFF) || (0x200C ≤ n && n ≤ 0x200D) ||
  (0x2070 ≤ n && n ≤ 0x218F) || (0x2C00 ≤ n && n ≤ 0x2FEF) || (0x3001 ≤ n && n ≤ 0xD7FF) ||
  (0xF900 ≤ n && n ≤ 0xFDCF) || (0xFDF0 ≤ n && n ≤ 0xFFFD) || (0x10000 ≤ n && n ≤ 0xEFFFF)

/-- Modelled from the spec: the Unicode ranges of the legal name characters, here
those an XML name may continue with. -/
def isExtNameChar (c : Char) : Bool :=
  let n := c.toNat
  isExtNameStart c || n = 0xB7 || (0x300 ≤ n && n ≤ 0x36F) || (0x203F ≤ n && n ≤ 0x2040)

/-- Modelled from the spec: the legal name-character set of rule 2 of the Name
Sanitizer (ASCII letters, digits, underscore, hyphen, full stop, and the Unicode
ranges XML names permit). -/
def isNameChar (c : Char) : Bool :=
  isAsciiLetter c || isAsciiDigit c || c = '_' || c = '-' || c = '.' || isExtNameChar c

/-- Modelled from the spec: the characters a name may start with (rule 3 of the Name
Sanitizer: not a digit, nor otherwise illegal as a name start). -/
def isNameStartChar (c : Char) : Bool :=
  isAsciiLetter c || c = '_' || isExtNameStart c

/-- Modelled from the spec: the function `checkKey`, which is not in `anyxml.go`; it is
the Name Sanitizer `sanitize` of the spec. `unnamed` is the fixed fallback literal of
rule 1, which the spec does not spell out. An empty name becomes `unnamed` (rule 1),
every character outside the legal set becomes an underscore (rule 2), an underscore is
put in front when the first character may not start a name (rule 3), and names with the
reserved start `xml` are left as they are (rule 4). -/
def sanitize (unnamed raw : String) : String :=
  match raw.toList.map (fun c => if isNameChar c then c else '_') with
  | [] => unnamed
  | c :: cs => if isNameStartChar c then String.mk (c :: cs) else String.mk ('_' :: c :: cs)

/-- Modelled from the spec: the default escaping mode, which replaces the five reserved
characters `<`, `>`, `&`, apostrophe and double quote by their entities. -/
def escapeChars (s : String) : String :=
  String.join (s.toList.map (fun c =>
    if c = '<' then "&lt;"
    else if c = '>' then "&gt;"
    else if c = '&' then "&amp;"
    else if c = Char.ofNat 39 then "&apos;"
    else if c = Char.ofNat 34 then "&quot;"
    else String.singleton c))

/-- Modelled from the spec: `currentIndent()` of the indentation state, the line
`padding` followed by one `indent` per level of depth, and the empty string when
`indent` is empty. -/
def pretty.currentIndent (p : pretty) : String :=
  if p.indent = "" then "" else p.padding ++ String.join (List.replicate p.depth p.indent)

/-- Modelled from the spec: what the spec leaves to the implementer or to collaborators
outside the encoder, namely the default root tag, the fallback literal for an empty
name, the alternate escaping mode, and the native marshaller of values of struct
kind. -/
structure Knobs where
  defaultRootTag : String
  unnamed : String
  escapeSpecial : String → String
  marshal : Value → String × GoError
  marshalIndent : Value → String → String → String × GoError

/-- Modelled from the spec: the text between the tags of a scalar, strings escaped by
`esc`, numbers and booleans in their canonical form, the nil value as the empty
text. -/
def scalarText (esc : String → String) : Value → String
  | .string s => esc s
  | .bool b => if b then "true" else "false"
  | .int n => toString n
  | .float64 text => text
  | _ => ""

/-- Modelled from the spec: the indentation written in front of an element,
`currentIndent()` in pretty mode and nothing in compact mode. -/
def lead (doIndent : Bool) (p : pretty) : String :=
  if doIndent then p.currentIndent else ""

/-- Modelled from the spec: the line break written after an element. The spec does
not say who ends a line; here, in pretty mode, an element ends its own line when it lies
deeper than `start`, which fits the use `anyxml.go` makes of `start` (it sets `start` to
1 before it encodes a multi-key mapping at depth 1 and then writes that line break
itself) and the output documented in `anyxml.go`. -/
def trail (doIndent : Bool) (p : pretty) : String :=
  if doIndent && decide (p.start < p.depth) then "\n" else ""

mutual
/-- Modelled from the spec: the function `mapToXmlIndent`, which is not in
`anyxml.go`; it is the Recursive Encoder `encode(tag, value, ctx, out)` of the spec,
returning the text it appends to `out` and its error. A scalar is one element on the
current line; a mapping is an open tag, its entries one level deeper under their
sanitized keys, and a close tag; a sequence contributes no wrapper, each element being
a sibling under the same tag except that a one-key mapping element goes under its own
key; a value of struct kind is the error of an unsupported nested typed value. -/
def encode (unnamed : String) (esc : String → String) (doIndent : Bool) :
    String → Value → pretty → String × GoError
  | _, .struct _, _ => ("", some "unsupported nested typed value")
  | tag, .slice vs, p => encodeSeq unnamed esc doIndent tag vs p
  | tag, .map m, p =>
    if m.isEmpty then
      (lead doIndent p ++ "<" ++ escapeChars tag ++ "></" ++ escapeChars tag ++ ">"
        ++ trail doIndent p, none)
    else
      let r := encodeMap unnamed esc doIndent m p.Indent
      match r.2 with
      | some e =>
        (lead doIndent p ++ "<" ++ escapeChars tag ++ ">" ++ (if doIndent then "\n" else "")
          ++ r.1, some e)
      | none =>
        (lead doIndent p ++ "<" ++ escapeChars tag ++ ">" ++ (if doIndent then "\n" else "")
          ++ r.1 ++ lead doIndent p ++ "</" ++ escapeChars tag ++ ">" ++ trail doIndent p, none)
  | tag, v, p =>
    (lead doIndent p ++ "<" ++ escapeChars tag ++ ">" ++ scalarText esc v
      ++ "</" ++ escapeChars tag ++ ">" ++ trail doIndent p, none)
/-- Modelled from the spec: the entries of a mapping, each under its sanitized key, in
the order of the list, until one fails. -/
def encodeMap (unnamed : String) (esc : String → String) (doIndent : Bool) :
    List (String × Value) → pretty → String × GoError
  | [], _ => ("", none)
  | (k, x) :: m, p =>
    match encode unnamed esc doIndent (sanitize unnamed k) x p with
    | (t, some e) => (t, some e)
    | (t, none) =>
      ((t ++ (encodeMap unnamed esc doIndent m p).1), (encodeMap unnamed esc doIndent m p).2)
/-- Modelled from the spec: the elements of a sequence under `tag`, in order, a
one-key mapping under its own sanitized key, until one fails. -/
def encodeSeq (unnamed : String) (esc : String → String) (doIndent : Bool) :
    String → List Value → pretty → String × GoError
  | _, [], _ => ("", none)
  | tag, .map [(k, x)] :: rest, p =>
    match encode unnamed esc doIndent (sanitize unnamed k) x p with
    | (t, some e) => (t, some e)
    | (t, none) =>
      ((t ++ (encodeSeq unnamed esc doIndent tag rest p).1),
        (encodeSeq unnamed esc doIndent tag rest p).2)
  | tag, vv :: rest, p =>
    match encode unnamed esc doIndent tag vv p with
    | (t, some e) => (t, some e)
    | (t, none) =>
      ((t ++ (encodeSeq unnamed esc doIndent tag rest p).1),
        (encodeSeq unnamed esc doIndent tag rest p).2)
end

/-- Modelled from the spec: the encoder as `anyxml.go` calls it. The text of `encode`
is appended to the output so far and the indentation state is left as it was found. -/
def specEncoder (unnamed : String) (esc : String → String) (doIndent : Bool) (s key : String)
    (value : Value) (p : pretty) : Enc :=
  ⟨s ++ (encode unnamed esc doIndent key value p).1, p, (encode unnamed esc doIndent key value p).2⟩

/-- Modelled from the spec: the collaborators of `anyxml.go` as the spec describes
them. `checkKey` is the Name Sanitizer, the three encoders are the Recursive Encoder
(the buffer variants write what the string variant writes, the special variant with the
alternate escaping mode when its last argument is set), the `Map` methods encode the
mapping under the root tag, and values of struct kind go to the native marshaller. -/
def specEnv (K : Knobs) : Env where
  DefaultRootTag := K.defaultRootTag
  checkKey := sanitize K.unnamed
  mapToXmlIndent := specEncoder K.unnamed escapeChars
  mapToXmlIndentByte := specEncoder K.unnamed escapeChars
  mapToXmlIndentByteSpecial := fun doIndent s key value p special =>
    specEncoder K.unnamed (if special then K.escapeSpecial else escapeChars) doIndent s key value p
  Xml := fun m rt => encode K.unnamed escapeChars false rt (.map m) pretty.new
  XmlIndent := fun m pfx indent rt =>
    encode K.unnamed escapeChars true rt (.map m) { pretty.new with indent := indent, padding := pfx }
  XmlIndentByte := fun m pfx indent rt =>
    encode K.unnamed escapeChars true rt (.map m) { pretty.new with indent := indent, padding := pfx }
  XmlIndentByteSpecial := fun m pfx indent rt =>
    encode K.unnamed K.escapeSpecial true rt (.map m)
      { pretty.new with indent := indent, padding := pfx }
  xmlMarshal := K.marshal
  xmlMarshalIndent := K.marshalIndent

/-- Modelled from the spec: sample values for what the spec leaves open, used where a
fully concrete environment is evaluated. The root tag is `doc`, the fallback name `_`,
the alternate escaping the default one, and the native marshaller writes an empty
element named after the struct. -/
def sampleKnobs : Knobs where
  defaultRootTag := "doc"
  unnamed := "_"
  escapeSpecial := escapeChars
  marshal := fun v =>
    match v with
    | .struct name => ("<" ++ name ++ "></" ++ name ++ ">", none)
    | _ => ("", some "xml: unsupported type")
  marshalIndent := fun v pfx _ =>
    match v with
    | .struct name => (pfx ++ "<" ++ name ++ "></" ++ name ++ ">", none)
    | _ => ("", some "xml: unsupported type")

/-! ## Statements of the claims, in the words of the spec -/

/-- The tag and the value under which an element of a top-level sequence is encoded
in compact mode: a mapping with exactly one key `k -> x` goes as `x` under `k`, every
other element goes as it is under the element tag `e`. -/
def promote (e : String) : Value → String × Value
  | .map [(k, x)] => (k, x)
  | vv => (e, vv)

/-- The encodings of the elements `vs`, one after the other in the order of the
sequence, each under the tag that `promote` gives it. -/
def encodeAll (E : Env) (e : String) (vs : List Value) : Enc :=
  vs.foldl
    (fun st vv => E.mapToXmlIndent false st.s (promote e vv).1 (promote e vv).2 st.p)
    ⟨"", pretty.new, none⟩

/-- The root tag the claims name for a list of optional tags: the first tag when one
or two are given, the fixed `DefaultRootTag` otherwise. -/
def rootTagOf (E : Env) : List String → String
  | [a] => a
  | [a, _] => a
  | _ => E.DefaultRootTag

/-- The element tag the claims name for a list of optional tags: the second tag when
exactly two are given, the literal `element` otherwise. -/
def elementTagOf : List String → String
  | [_, b] => b
  | _ => "element"

/-- What the pretty entry point writes for one element of a top-level sequence, given
the sanitized element tag `et`: a mapping with exactly one key `k -> x` is encoded as
`x` under the sanitized `k`; every other element is encoded under `et`, a mapping with
`start` set to 1 and followed by a line feed, anything else with `start` set to 0. -/
def prettyElement (E : Env) (et : String) (st : Enc) : Value → Enc
  | .map [(k, x)] => E.mapToXmlIndent true st.s (E.checkKey k) x st.p
  | .map m =>
    let r := E.mapToXmlIndent true st.s et (.map m) { st.p with start := 1 }
    { r with s := r.s ++ "\n" }
  | vv => E.mapToXmlIndent true st.s et vv { st.p with start := 0 }

/-- The pretty encodings of the elements `vs`, one after the other in the order of
the sequence, starting one level deep with the given line padding and indent. -/
def encodeAllIndent (E : Env) (pfx indent et : String) (vs : List Value) : Enc :=
  vs.foldl (prettyElement E et) ⟨"", ⟨indent, pfx, 1, 0⟩, none⟩

/-- White space in XML text: space, tab, line feed, carriage return. -/
def isXmlSpace (c : Char) : Bool :=
  c.toNat = 32 || c.toNat = 9 || c.toNat = 10 || c.toNat = 13

/-- The scan behind `stripWs`. Markup, from `<` to the next `>`, is copied. The text
between two pieces of markup is held back in `text` and copied only when one of its
characters is not white space. The flag tells whether the scan is inside markup. -/
def stripWsAux : List Char → List Char → Bool → List Char
  | [], text, _ => if text.all isXmlSpace then [] else text
  | c :: cs, _, true => c :: stripWsAux cs [] (c != '>')
  | c :: cs, text, false =>
    if c = '<' then (if text.all isXmlSpace then [] else text) ++ c :: stripWsAux cs [] true
    else stripWsAux cs (text ++ [c]) false

/-- The lines of a text: the pieces between its line feeds. -/
def linesOf : List Char → List (List Char)
  | [] => [[]]
  | c :: cs =>
    if c.toNat = 10 then [] :: linesOf cs
    else
      match linesOf cs with
      | [] => [[c]]
      | l :: ls => (c :: l) :: ls

/-- Every line of `out` begins with `pfx`. -/
def everyLineBegins (pfx out : String) : Prop :=
  ∀ l ∈ linesOf out.toList, pfx.toList <+: l

instance (pfx out : String) : Decidable (everyLineBegins pfx out) := by
  unfold everyLineBegins
  infer_instance

/-- An indentation state whose line padding and indent are white space only. -/
def pretty.Blank (p : pretty) : Prop :=
  p.padding.toList.all isXmlSpace = true ∧ p.indent.toList.all isXmlSpace = true

/-- The text `x` strips to `y`: when the scan of `stripWs` meets `x` outside markup
with only white space held back, it copies `y` and is again outside markup with only
white space held back when `x` ends. -/
def StripsTo (x y : List Char) : Prop :=
  ∀ rest w : List Char, w.all isXmlSpace = true →
    ∃ w2 : List Char, w2.all isXmlSpace = true ∧
      stripWsAux (x ++ rest) w false = y ++ stripWsAux rest w2 false

/-- The encoder agrees with itself across the two modes on `value` under `key`: called
in pretty mode with a blank indentation state it appends a text, leaves the state blank
and reports the error it reports in compact mode, where it appends a text too; when it
reports none, the pretty text strips to the compact text. -/
def EncoderStrips (E : Env) (key : String) (value : Value) : Prop :=
  ∀ (s s2 : String) (pc pp : pretty), pp.Blank →
    ∃ x y : String,
      (E.mapToXmlIndent true s2 key value pp).s = s2 ++ x ∧
      (E.mapToXmlIndent false s key value pc).s = s ++ y ∧
      (E.mapToXmlIndent true s2 key value pp).p.Blank ∧
      (E.mapToXmlIndent true s2 key value pp).err = (E.mapToXmlIndent false s key value pc).err ∧
      ((E.mapToXmlIndent false s key value pc).err = none → StripsTo x.toList y.toList)

/-- The buffer encoder writes what the string encoder writes: called with the same
arguments, whatever the output so far of each, the two append the same text, leave the
same indentation state and report the same error. -/
def AppendsSame (E : Env) : Prop :=
  ∀ (d : Bool) (s b key : String) (value : Value) (p : pretty),
    ∃ text : String,
      (E.mapToXmlIndent d s key value p).s = s ++ text ∧
      (E.mapToXmlIndentByte d b key value p).s = b ++ text ∧
      (E.mapToXmlIndentByte d b key value p).p = (E.mapToXmlIndent d s key value p).p ∧
      (E.mapToXmlIndentByte d b key value p).err = (E.mapToXmlIndent d s key value p).err

/-- A text that stripping leaves as it is: it has no `<`, and it is empty or has a
character that is not white space. -/
def plainText (t : List Char) : Bool :=
  !(t.contains '<') && (t.isEmpty || !(t.all isXmlSpace))

mutual
/-- No scalar anywhere in the value is written as a blank text: no string is made of
white space only without being empty, and the text of every `float64` is, as the texts
`%v` prints, free of `<` and not made of white space only. -/
def noBlankText : Value → Bool
  | .string s => s.toList.isEmpty || !(s.toList.all isXmlSpace)
  | .float64 text => plainText text.toList
  | .slice vs => noBlankTextList vs
  | .map m => noBlankTextEntries m
  | _ => true
/-- The condition `noBlankText` for every element of a sequence. -/
def noBlankTextList : List Value → Bool
  | [] => true
  | v :: vs => noBlankText v && noBlankTextList vs
/-- The condition `noBlankText` for every value of a mapping. -/
def noBlankTextEntries : List (String × Value) → Bool
  | [] => true
  | (_, x) :: m => noBlankText x && noBlankTextEntries m
end

theorem forRange_eq_foldl_take (body : Value → Enc → Enc) (vs : List Value) (st : Enc) :
    ∃ n, n ≤ vs.length ∧
      forRange body vs st = (vs.take n).foldl (fun acc vv => body vv acc) st ∧
      ((forRange body vs st).err = none → n = vs.length) ∧ (n = 0 → vs = []) := by
  induction vs generalizing st with
  | nil => exact ⟨0, by simp [forRange]⟩
  | cons vv rest ih =>
    cases h : (body vv st).err with
    | none =>
      obtain ⟨n, hn, heq, herr, _⟩ := ih (body vv st)
      refine ⟨n + 1, by simpa using hn, ?_, ?_, by simp⟩
      · simp [forRange, h, heq]
      · intro h2
        simp only [forRange, h] at h2
        simpa using herr h2
    | some e =>
      refine ⟨1, by simp, ?_, ?_, by simp⟩
      · simp [forRange, h]
      · intro h2
        simp [forRange, h] at h2

theorem AnyXml_body_eq (E : Env) (et : String) (vv : Value) (st : Enc) :
    AnyXml.body E et vv st =
      E.mapToXmlIndent false st.s (promote et vv).1 (promote et vv).2 st.p := by
  cases vv with
  | map m =>
    match m with
    | [] => simp [AnyXml.body, promote]
    | [(k, x)] => simp [AnyXml.body, promote]
    | _ :: _ :: _ => simp [AnyXml.body, promote]
  | _ => simp [AnyXml.body, promote]

theorem AnyXml_slice (E : Env) (vs : List Value) (tags : List String) :
    AnyXml E (.slice vs) tags =
      some (("<" ++ (if tags.length = 1 ∨ tags.length = 2 then tags.getD 0 "" else E.DefaultRootTag)
          ++ ">") ++
        ((forRange (AnyXml.body E (if tags.length = 2 then tags.getD 1 "" else DefaultElementTag))
            vs ⟨"", pretty.new, none⟩).s
          ++ "</" ++ (if tags.length = 1 ∨ tags.length = 2 then tags.getD 0 "" else E.DefaultRootTag)
          ++ ">"),
        (forRange (AnyXml.body E (if tags.length = 2 then tags.getD 1 "" else DefaultElementTag))
            vs ⟨"", pretty.new, none⟩).err) := by
  simp [AnyXml, TypeOf]

theorem forRange_AnyXml_body (E : Env) (et : String) (vs : List Value) :
    ∃ n, n ≤ vs.length ∧
      forRange (AnyXml.body E et) vs ⟨"", pretty.new, none⟩ = encodeAll E et (vs.take n) ∧
      ((encodeAll E et (vs.take n)).err = none → n = vs.length) ∧ (n = 0 → vs = []) := by
  obtain ⟨n, hn, heq, herr, h0⟩ := forRange_eq_foldl_take (AnyXml.body E et) vs ⟨"", pretty.new, none⟩
  have hfold : (vs.take n).foldl (fun acc vv => AnyXml.body E et vv acc) ⟨"", pretty.new, none⟩
      = encodeAll E et (vs.take n) := by
    unfold encodeAll
    congr 1
    funext acc vv
    exact AnyXml_body_eq E et vv acc
  rw [hfold] at heq
  exact ⟨n, hn, heq, fun h => herr (by rw [heq]; exact h), h0⟩

theorem rootTag_select (E : Env) (tags : List String) :
    (if tags.length = 1 ∨ tags.length = 2 then tags.getD 0 "" else E.DefaultRootTag)
      = rootTagOf E tags := by
  rcases tags with _ | ⟨a, _ | ⟨b, _ | ⟨c, rest⟩⟩⟩ <;> simp [rootTagOf]

theorem elementTag_select (tags : List String) :
    (if tags.length = 2 then tags.getD 1 "" else DefaultElementTag) = elementTagOf tags := by
  rcases tags with _ | ⟨a, _ | ⟨b, _ | ⟨c, rest⟩⟩⟩ <;> simp [elementTagOf, DefaultElementTag]

theorem AnyXmlIndent_body_eq (E : Env) (et : String) (vv : Value) (st : Enc) :
    AnyXmlIndent.body E et vv st = prettyElement E et st vv := by
  cases vv with
  | map m =>
    match m with
    | [] => simp [AnyXmlIndent.body, prettyElement]
    | [(k, x)] => simp [AnyXmlIndent.body, prettyElement]
    | _ :: _ :: _ => simp [AnyXmlIndent.body, prettyElement]
  | _ => simp [AnyXmlIndent.body, prettyElement]

theorem AnyXmlIndent_slice (E : Env) (vs : List Value) (pfx indent : String)
    (tags : List String) :
    AnyXmlIndent E (.slice vs) pfx indent tags =
      some (("<" ++ E.checkKey (rootTagOf E tags) ++ ">\n") ++
        ((forRange (AnyXmlIndent.body E (E.checkKey (elementTagOf tags))) vs
            ⟨"", ⟨indent, pfx, 1, 0⟩, none⟩).s
          ++ "</" ++ E.checkKey (rootTagOf E tags) ++ ">"),
        (forRange (AnyXmlIndent.body E (E.checkKey (elementTagOf tags))) vs
            ⟨"", ⟨indent, pfx, 1, 0⟩, none⟩).err) := by
  rw [← rootTag_select E tags, ← elementTag_select tags]
  simp [AnyXmlIndent, TypeOf, pretty.Indent, pretty.new]

theorem forRange_AnyXmlIndent_body (E : Env) (pfx indent et : String) (vs : List Value) :
    ∃ n, n ≤ vs.length ∧
      forRange (AnyXmlIndent.body E et) vs ⟨"", ⟨indent, pfx, 1, 0⟩, none⟩
        = encodeAllIndent E pfx indent et (vs.take n) ∧
      ((encodeAllIndent E pfx indent et (vs.take n)).err = none → n = vs.length) ∧
      (n = 0 → vs = []) := by
  obtain ⟨n, hn, heq, herr, h0⟩ :=
    forRange_eq_foldl_take (AnyXmlIndent.body E et) vs ⟨"", ⟨indent, pfx, 1, 0⟩, none⟩
  have hfold : (vs.take n).foldl (fun acc vv => AnyXmlIndent.body E et vv acc)
      ⟨"", ⟨indent, pfx, 1, 0⟩, none⟩ = encodeAllIndent E pfx indent et (vs.take n) := by
    unfold encodeAllIndent
    congr 1
    funext acc vv
    exact AnyXmlIndent_body_eq E et vv acc
  rw [hfold] at heq
  exact ⟨n, hn, heq, fun h => herr (by rw [heq]; exact h), h0⟩

theorem lt_append_ne_empty (a b : String) : "<" ++ a ++ b ≠ "" := by
  intro h
  have h2 := congrArg String.length h
  simp only [String.length_append] at h2
  have h3 : "<".length = 1 := rfl
  have h4 : "".length = 0 := rfl
  omega

theorem StripsTo_nil : StripsTo [] [] := fun _ w hw => ⟨w, hw, rfl⟩

theorem StripsTo_append {x1 y1 x2 y2 : List Char} (h1 : StripsTo x1 y1) (h2 : StripsTo x2 y2) :
    StripsTo (x1 ++ x2) (y1 ++ y2) := by
  intro rest w hw
  obtain ⟨w1, hw1, e1⟩ := h1 (x2 ++ rest) w hw
  obtain ⟨w2, hw2, e2⟩ := h2 rest w1 hw1
  exact ⟨w2, hw2, by rw [List.append_assoc, e1, e2, List.append_assoc]⟩

theorem isXmlSpace_ne_lt {c : Char} (h : isXmlSpace c = true) : c ≠ '<' := by
  intro hc
  subst hc
  exact absurd h (by decide)

theorem StripsTo_blank (u : List Char) (hu : u.all isXmlSpace = true) : StripsTo u [] := by
  induction u with
  | nil => exact StripsTo_nil
  | cons c u ih =>
    intro rest w hw
    simp only [List.all_cons, Bool.and_eq_true] at hu
    obtain ⟨w2, hw2, e⟩ := ih hu.2 rest (w ++ [c]) (by simp [hw, hu.1])
    refine ⟨w2, hw2, ?_⟩
    simp only [List.cons_append, stripWsAux, isXmlSpace_ne_lt hu.1, if_false]
    exact e

theorem stripWsAux_markup (t rest text : List Char) (ht : '>' ∉ t) :
    stripWsAux (t ++ '>' :: rest) text true = t ++ '>' :: stripWsAux rest [] false := by
  induction t generalizing text with
  | nil => simp [stripWsAux]
  | cons c t ih =>
    have hc : c ≠ '>' := fun h => ht (by simp [h])
    have ht2 : '>' ∉ t := fun h => ht (by simp [h])
    have hb : (c != '>') = true := by simp [hc]
    have e := ih [] ht2
    simp only [List.cons_append, stripWsAux, hb]
    exact congrArg (List.cons c) e

theorem flush_blank (w : List Char) (h : w.all isXmlSpace = true) :
    (if w.all isXmlSpace = true then ([] : List Char) else w) = [] := by
  simp [h]

theorem stripWsAux_text (text rest w : List Char) (ht : '<' ∉ text) :
    stripWsAux (text ++ '<' :: rest) w false =
      (if (w ++ text).all isXmlSpace = true then [] else w ++ text)
        ++ '<' :: stripWsAux rest [] true := by
  induction text generalizing w with
  | nil => simp [stripWsAux]
  | cons c text ih =>
    have hc : c ≠ '<' := fun h => ht (by simp [h])
    have ht2 : '<' ∉ text := fun h => ht (by simp [h])
    have e := ih (w ++ [c]) ht2
    simp only [List.cons_append, stripWsAux, hc, if_false]
    simpa using e

theorem StripsTo_element (t text : List Char) (ht : '>' ∉ t) (htext : '<' ∉ text)
    (hnb : text.all isXmlSpace = false) :
    StripsTo ('<' :: (t ++ '>' :: (text ++ '<' :: '/' :: (t ++ ['>']))))
      ('<' :: (t ++ '>' :: (text ++ '<' :: '/' :: (t ++ ['>'])))) := by
  intro rest w hw
  refine ⟨[], rfl, ?_⟩
  have ht2 : '>' ∉ '/' :: t := by
    intro h
    rcases List.mem_cons.1 h with h | h
    · exact absurd h (by decide)
    · exact ht h
  have e1 := stripWsAux_markup t (text ++ '<' :: '/' :: (t ++ '>' :: rest)) [] ht
  have e2 := stripWsAux_text text ('/' :: (t ++ '>' :: rest)) [] htext
  have e3 := stripWsAux_markup ('/' :: t) rest [] ht2
  simp only [List.nil_append, hnb, Bool.false_eq_true, if_false, List.cons_append] at e2 e3
  have hx : ('<' :: (t ++ '>' :: (text ++ '<' :: '/' :: (t ++ ['>'])))) ++ rest
      = '<' :: (t ++ '>' :: (text ++ '<' :: '/' :: (t ++ '>' :: rest))) := by simp
  have step : ∀ cs, stripWsAux ('<' :: cs) w false = '<' :: stripWsAux cs [] true := by
    intro cs
    simp [stripWsAux, hw]
  rw [hx, step, e1, e2, e3]
  simp

theorem join_blank (l : List String) (acc : String)
    (hacc : acc.toList.all isXmlSpace = true)
    (hl : ∀ s ∈ l, s.toList.all isXmlSpace = true) :
    (l.foldl (fun r s => r ++ s) acc).toList.all isXmlSpace = true := by
  induction l generalizing acc with
  | nil => exact hacc
  | cons a l ih =>
    apply ih
    · have ha := hl a (by simp)
      simp only [String.toList, String.data_append, List.all_append, Bool.and_eq_true]
      exact ⟨hacc, ha⟩
    · exact fun s hs => hl s (by simp [hs])

theorem lead_blank (d : Bool) (p : pretty) (h : p.Blank) :
    (lead d p).toList.all isXmlSpace = true := by
  unfold lead pretty.currentIndent
  split
  · split
    · rfl
    · simp only [String.toList, String.data_append, List.all_append, Bool.and_eq_true]
      refine ⟨h.1, ?_⟩
      apply join_blank
      · rfl
      · intro s hs
        rw [List.eq_of_mem_replicate hs]
        exact h.2
  · rfl

theorem trail_blank (d : Bool) (p : pretty) : (trail d p).toList.all isXmlSpace = true := by
  unfold trail
  split
  · decide
  · rfl

/-- On a value that the encoder of the spec writes as one element with a text that is
not blank, the encoder agrees with itself across the two modes. -/
theorem encode_leaf_strips (K : Knobs) (key : String) (v : Value)
    (hleaf : ∀ d pp, encode K.unnamed escapeChars d key v pp =
      (lead d pp ++ "<" ++ escapeChars key ++ ">" ++ scalarText escapeChars v
        ++ "</" ++ escapeChars key ++ ">" ++ trail d pp, none))
    (htag : '>' ∉ (escapeChars key).toList)
    (htext : '<' ∉ (scalarText escapeChars v).toList)
    (hnb : (scalarText escapeChars v).toList.all isXmlSpace = false) :
    EncoderStrips (specEnv K) key v := by
  intro s s2 pc pp hB
  refine ⟨lead true pp ++ "<" ++ escapeChars key ++ ">" ++ scalarText escapeChars v
        ++ "</" ++ escapeChars key ++ ">" ++ trail true pp,
      lead false pc ++ "<" ++ escapeChars key ++ ">" ++ scalarText escapeChars v
        ++ "</" ++ escapeChars key ++ ">" ++ trail false pc, ?_, ?_, ?_, ?_, ?_⟩
  · show (specEncoder K.unnamed escapeChars true s2 key v pp).s = s2 ++ _
    simp only [specEncoder, hleaf]
  · show (specEncoder K.unnamed escapeChars false s key v pc).s = s ++ _
    simp only [specEncoder, hleaf]
  · exact hB
  · show (specEncoder K.unnamed escapeChars true s2 key v pp).err
      = (specEncoder K.unnamed escapeChars false s key v pc).err
    simp only [specEncoder, hleaf]
  · intro _
    have h1 := StripsTo_blank _ (lead_blank true pp hB)
    have h2 := StripsTo_element _ _ htag htext hnb
    have h3 := StripsTo_blank _ (trail_blank true pp)
    have h := StripsTo_append (StripsTo_append h1 h2) h3
    have hl : (lead false pc).toList = [] := rfl
    have ht : (trail false pc).toList = [] := rfl
    have e1 : "<".toList = ['<'] := rfl
    have e2 : ">".toList = ['>'] := rfl
    have e3 : "</".toList = ['<', '/'] := rfl
    simp only [String.toList, String.data_append] at h hl ht e1 e2 e3 ⊢
    simp only [hl, ht, e1, e2, e3]
    simpa using h

theorem linesOf_cons_head (c : Char) (cs : List Char) (hc : c.toNat ≠ 10) :
    ∃ l ls, linesOf (c :: cs) = (c :: l) :: ls := by
  cases h : linesOf cs with
  | nil => exact ⟨[], [], by simp [linesOf, hc, h]⟩
  | cons l ls => exact ⟨l, ls, by simp [linesOf, hc, h]⟩

theorem forRange_stop (body : Value → Enc → Enc) (vs : List Value) (st : Enc) (i : Nat)
    (hi : i < vs.length)
    (hok : ∀ j, j < i → ((vs.take (j + 1)).foldl (fun acc vv => body vv acc) st).err = none)
    (hfail : ((vs.take (i + 1)).foldl (fun acc vv => body vv acc) st).err ≠ none) :
    forRange body vs st = (vs.take (i + 1)).foldl (fun acc vv => body vv acc) st := by
  induction vs generalizing st i with
  | nil => simp at hi
  | cons vv rest ih =>
    cases i with
    | zero =>
      simp only [zero_add, List.take_succ_cons, List.take_zero, List.foldl_cons,
        List.foldl_nil] at hfail ⊢
      cases h : (body vv st).err with
      | none => exact absurd h hfail
      | some e => simp [forRange, h]
    | succ i =>
      have h0 : (body vv st).err = none := by
        have := hok 0 (Nat.succ_pos i)
        simpa using this
      simp only [forRange, h0, List.take_succ_cons, List.foldl_cons]
      apply ih (body vv st) i (by simpa using hi)
      · intro j hj
        have := hok (j + 1) (by omega)
        simpa using this
      · simpa using hfail

theorem encodeAll_eq_foldl_body (E : Env) (et : String) (l : List Value) :
    l.foldl (fun acc vv => AnyXml.body E et vv acc) ⟨"", pretty.new, none⟩ = encodeAll E et l := by
  unfold encodeAll
  congr 1
  funext acc vv
  exact AnyXml_body_eq E et vv acc

theorem sanitize_char_idem (c : Char) :
    (if isNameChar (if isNameChar c then c else '_') then (if isNameChar c then c else '_')
      else '_') = (if isNameChar c then c else '_') := by
  by_cases h : isNameChar c = true
  · simp [h]
  · have h2 : isNameChar '_' = true := by decide
    simp [h, h2]

theorem sanitize_map_idem (l : List Char) :
    ((l.map (fun c => if isNameChar c then c else '_')).map
        (fun c => if isNameChar c then c else '_'))
      = l.map (fun c => if isNameChar c then c else '_') := by
  induction l with
  | nil => rfl
  | cons c l ih =>
    simp only [List.map_cons, ih, sanitize_char_idem c]

theorem sanitize_of_chars (unnamed : String) (l : List Char) :
    sanitize unnamed (String.mk l) =
      (match l.map (fun c => if isNameChar c then c else '_') with
      | [] => unnamed
      | c :: cs => if isNameStartChar c then String.mk (c :: cs) else String.mk ('_' :: c :: cs)) :=
  rfl

theorem sanitize_fixed (unnamed : String) (c : Char) (cs : List Char)
    (hmap : (c :: cs).map (fun c => if isNameChar c then c else '_') = c :: cs)
    (hc : isNameStartChar c = true) :
    sanitize unnamed (String.mk (c :: cs)) = String.mk (c :: cs) := by
  rw [sanitize_of_chars, hmap]
  simp only [hc, if_true]

theorem sanitize_idempotent (unnamed : String) (hu : sanitize unnamed unnamed = unnamed)
    (s : String) : sanitize unnamed (sanitize unnamed s) = sanitize unnamed s := by
  have hmap := sanitize_map_idem s.toList
  have hs := sanitize_of_chars unnamed s.toList
  have hss : String.mk s.toList = s := rfl
  rw [hss] at hs
  generalize s.toList.map (fun c => if isNameChar c then c else '_') = l at hmap hs
  cases l with
  | nil =>
    simp only at hs
    rw [hs]
    exact hu
  | cons c cs =>
    simp only at hs
    by_cases hc : isNameStartChar c = true
    · simp only [hc, if_true] at hs
      rw [hs]
      exact sanitize_fixed unnamed c cs hmap hc
    · simp only [hc, Bool.false_eq_true, if_false] at hs
      rw [hs]
      apply sanitize_fixed unnamed '_' (c :: cs) _ (by decide)
      have h1 : isNameChar '_' = true := by decide
      rw [List.map_cons, hmap]
      simp only [h1, if_true]

theorem AnyXmlIndentByte_slice (E : Env) (vs : List Value) (pfx indent : String)
    (tags : List String) :
    AnyXmlIndentByte E (.slice vs) pfx indent tags =
      some ((forRange (AnyXmlIndentByte.body E (E.checkKey (elementTagOf tags))) vs
            ⟨"" ++ ("<" ++ E.checkKey (E.checkKey (rootTagOf E tags)) ++ ">\n"),
              ⟨indent, pfx, 1, 0⟩, none⟩).s
          ++ ("</" ++ E.checkKey (rootTagOf E tags) ++ ">"),
        (forRange (AnyXmlIndentByte.body E (E.checkKey (elementTagOf tags))) vs
            ⟨"" ++ ("<" ++ E.checkKey (E.checkKey (rootTagOf E tags)) ++ ">\n"),
              ⟨indent, pfx, 1, 0⟩, none⟩).err) := by
  rw [← rootTag_select E tags, ← elementTag_select tags]
  rfl

theorem AnyXmlIndentByteSpecial_slice (E : Env) (vs : List Value) (pfx indent : String)
    (tags : List String) :
    AnyXmlIndentByteSpecial E (.slice vs) pfx indent tags =
      some ((forRange (AnyXmlIndentByteSpecial.body E (E.checkKey (elementTagOf tags))) vs
            ⟨"" ++ ("<" ++ E.checkKey (E.checkKey (rootTagOf E tags)) ++ ">\n"),
              ⟨indent, pfx, 1, 0⟩, none⟩).s
          ++ ("</" ++ E.checkKey (rootTagOf E tags) ++ ">"),
        (forRange (AnyXmlIndentByteSpecial.body E (E.checkKey (elementTagOf tags))) vs
            ⟨"" ++ ("<" ++ E.checkKey (E.checkKey (rootTagOf E tags)) ++ ">\n"),
              ⟨indent, pfx, 1, 0⟩, none⟩).err) := by
  rw [← rootTag_select E tags, ← elementTag_select tags]
  rfl

theorem specEnv_appendsSame (K : Knobs) : AppendsSame (specEnv K) :=
  fun d _ _ key value p => ⟨(encode K.unnamed escapeChars d key value p).1, rfl, rfl, rfl, rfl⟩

theorem body_byte_refines (E : Env) (hsame : AppendsSame E) (et pre : String) (vv : Value)
    (stp stb : Enc) (hs : stb.s = pre ++ stp.s) (hp : stb.p = stp.p) :
    (AnyXmlIndentByte.body E et vv stb).s = pre ++ (AnyXmlIndent.body E et vv stp).s ∧
    (AnyXmlIndentByte.body E et vv stb).p = (AnyXmlIndent.body E et vv stp).p ∧
    ((AnyXmlIndent.body E et vv stp).err = none → (AnyXmlIndentByte.body E et vv stb).err = none) := by
  have call : ∀ (key : String) (x : Value) (p : pretty),
      (E.mapToXmlIndentByte true stb.s key x p).s = pre ++ (E.mapToXmlIndent true stp.s key x p).s ∧
      (E.mapToXmlIndentByte true stb.s key x p).p = (E.mapToXmlIndent true stp.s key x p).p ∧
      (E.mapToXmlIndentByte true stb.s key x p).err = (E.mapToXmlIndent true stp.s key x p).err := by
    intro key x p
    obtain ⟨text, h1, h2, h3, h4⟩ := hsame true stp.s stb.s key x p
    exact ⟨by rw [h2, h1, hs, String.append_assoc], h3, h4⟩
  have multi : ∀ m : List (String × Value), m.length ≠ 1 →
      (AnyXmlIndentByte.body E et (.map m) stb).s
        = pre ++ (AnyXmlIndent.body E et (.map m) stp).s ∧
      (AnyXmlIndentByte.body E et (.map m) stb).p = (AnyXmlIndent.body E et (.map m) stp).p ∧
      ((AnyXmlIndent.body E et (.map m) stp).err = none →
        (AnyXmlIndentByte.body E et (.map m) stb).err = none) := by
    intro m hm
    obtain ⟨c1, c2, _⟩ := call et (.map m) { stp.p with start := 1 }
    simp only [AnyXmlIndentByte.body, AnyXmlIndent.body, hm, if_false, bufferWrite, hp]
    exact ⟨by rw [c1, String.append_assoc], c2, fun _ => trivial⟩
  have other : ∀ p : pretty,
      (E.mapToXmlIndentByte true stb.s et vv p).s = pre ++ (E.mapToXmlIndent true stp.s et vv p).s ∧
      (E.mapToXmlIndentByte true stb.s et vv p).p = (E.mapToXmlIndent true stp.s et vv p).p ∧
      ((E.mapToXmlIndent true stp.s et vv p).err = none →
        (E.mapToXmlIndentByte true stb.s et vv p).err = none) := by
    intro p
    obtain ⟨c1, c2, c3⟩ := call et vv p
    exact ⟨c1, c2, fun h => by rw [c3, h]⟩
  cases vv with
  | map m =>
    match m with
    | [] => exact multi [] (by simp)
    | [(k, x)] =>
      obtain ⟨c1, c2, c3⟩ := call (E.checkKey k) x stp.p
      simp only [AnyXmlIndentByte.body, AnyXmlIndent.body, List.length_singleton, if_true,
        List.foldl_cons, List.foldl_nil, hp]
      exact ⟨c1, c2, fun h => by rw [c3, h]⟩
    | a :: b :: m => exact multi (a :: b :: m) (by simp)
  | nil => simpa only [AnyXmlIndentByte.body, AnyXmlIndent.body, hp] using other _
  | bool b => simpa only [AnyXmlIndentByte.body, AnyXmlIndent.body, hp] using other _
  | int n => simpa only [AnyXmlIndentByte.body, AnyXmlIndent.body, hp] using other _
  | float64 t => simpa only [AnyXmlIndentByte.body, AnyXmlIndent.body, hp] using other _
  | string t => simpa only [AnyXmlIndentByte.body, AnyXmlIndent.body, hp] using other _
  | slice l => simpa only [AnyXmlIndentByte.body, AnyXmlIndent.body, hp] using other _
  | struct n => simpa only [AnyXmlIndentByte.body, AnyXmlIndent.body, hp] using other _

theorem forRange_byte_refines (E : Env) (hsame : AppendsSame E) (et pre : String)
    (vs : List Value) (stp stb : Enc) (hs : stb.s = pre ++ stp.s) (hp : stb.p = stp.p)
    (he : stb.err = stp.err)
    (hrun : (forRange (AnyXmlIndent.body E et) vs stp).err = none) :
    (forRange (AnyXmlIndentByte.body E et) vs stb).s
      = pre ++ (forRange (AnyXmlIndent.body E et) vs stp).s ∧
    (forRange (AnyXmlIndentByte.body E et) vs stb).err = none := by
  induction vs generalizing stp stb with
  | nil =>
    simp only [forRange] at hrun ⊢
    exact ⟨hs, by rw [he, hrun]⟩
  | cons vv rest ih =>
    obtain ⟨b1, b2, b3⟩ := body_byte_refines E hsame et pre vv stp stb hs hp
    cases h : (AnyXmlIndent.body E et vv stp).err with
    | some e => simp [forRange, h] at hrun
    | none =>
      have hb := b3 h
      simp only [forRange, h, hb] at hrun ⊢
      exact ih _ _ b1 b2 (by rw [hb, h]) hrun

theorem forRange_appends (body : Value → Enc → Enc)
    (happ : ∀ vv st, ∃ text, (body vv st).s = st.s ++ text) (vs : List Value) (st : Enc) :
    ∃ text, (forRange body vs st).s = st.s ++ text := by
  induction vs generalizing st with
  | nil => exact ⟨"", by simp [forRange]⟩
  | cons vv rest ih =>
    obtain ⟨t1, h1⟩ := happ vv st
    cases h : (body vv st).err with
    | some e => exact ⟨t1, by simp only [forRange, h]; exact h1⟩
    | none =>
      obtain ⟨t2, h2⟩ := ih (body vv st)
      exact ⟨t1 ++ t2, by simp only [forRange, h]; rw [h2, h1, String.append_assoc]⟩

theorem AnyXmlIndentByte_body_appends (E : Env) (et : String)
    (happ : ∀ d b key value p, ∃ text, (E.mapToXmlIndentByte d b key value p).s = b ++ text)
    (vv : Value) (st : Enc) : ∃ text, (AnyXmlIndentByte.body E et vv st).s = st.s ++ text := by
  have multi : ∀ m : List (String × Value), m.length ≠ 1 →
      ∃ text, (AnyXmlIndentByte.body E et (.map m) st).s = st.s ++ text := by
    intro m hm
    obtain ⟨t, ht⟩ := happ true st.s et (.map m) { st.p with start := 1 }
    exact ⟨t ++ "\n", by
      simp only [AnyXmlIndentByte.body, hm, if_false, bufferWrite]
      rw [ht, String.append_assoc]⟩
  cases vv with
  | map m =>
    match m with
    | [] => exact multi [] (by simp)
    | [(k, x)] =>
      obtain ⟨t, ht⟩ := happ true st.s (E.checkKey k) x st.p
      exact ⟨t, by
        simp only [AnyXmlIndentByte.body, List.length_singleton, if_true, List.foldl_cons,
          List.foldl_nil]
        exact ht⟩
    | a :: b :: m => exact multi (a :: b :: m) (by simp)
  | nil => exact happ true st.s et _ _
  | bool b => exact happ true st.s et _ _
  | int n => exact happ true st.s et _ _
  | float64 t => exact happ true st.s et _ _
  | string t => exact happ true st.s et _ _
  | slice l => exact happ true st.s et _ _
  | struct n => exact happ true st.s et _ _

theorem AnyXmlIndentByteSpecial_body_appends (E : Env) (et : String)
    (happ : ∀ d b key value p sp, ∃ text,
      (E.mapToXmlIndentByteSpecial d b key value p sp).s = b ++ text)
    (vv : Value) (st : Enc) :
    ∃ text, (AnyXmlIndentByteSpecial.body E et vv st).s = st.s ++ text := by
  have multi : ∀ m : List (String × Value), m.length ≠ 1 →
      ∃ text, (AnyXmlIndentByteSpecial.body E et (.map m) st).s = st.s ++ text := by
    intro m hm
    obtain ⟨t, ht⟩ := happ true st.s et (.map m) { st.p with start := 1 } true
    exact ⟨t ++ "\n", by
      simp only [AnyXmlIndentByteSpecial.body, hm, if_false, bufferWrite]
      rw [ht, String.append_assoc]⟩
  cases vv with
  | map m =>
    match m with
    | [] => exact multi [] (by simp)
    | [(k, x)] =>
      obtain ⟨t, ht⟩ := happ true st.s (E.checkKey k) x st.p true
      exact ⟨t, by
        simp only [AnyXmlIndentByteSpecial.body, List.length_singleton, if_true, List.foldl_cons,
          List.foldl_nil]
        exact ht⟩
    | a :: b :: m => exact multi (a :: b :: m) (by simp)
  | nil => exact happ true st.s et _ _ true
  | bool b => exact happ true st.s et _ _ true
  | int n => exact happ true st.s et _ _ true
  | float64 t => exact happ true st.s et _ _ true
  | string t => exact happ true st.s et _ _ true
  | slice l => exact happ true st.s et _ _ true
  | struct n => exact happ true st.s et _ _ true

/-- C1. Tag promotion in compact mode. For every top-level sequence `vs`, root tag
`r` and element tag `e`, `AnyXml` returns `<r>`, then what the encoder has written for
the elements taken in their order, each under the tag `promote` gives it (its own key
for a one-key mapping, `e` otherwise), then `</r>`; all the elements are encoded unless
the encoder reports an error, which stops the loop and is returned. With the encoder of
the spec the sequence `[{"a":1}, {"b":2}, "x"]` under `r` and `e` gives exactly
`<r><a>1</a><b>2</b><e>x</e></r>`. -/
theorem C1_tag_promotion :
    (∀ (E : Env) (vs : List Value) (r e : String),
      ∃ n, n ≤ vs.length ∧
        AnyXml E (.slice vs) [r, e] =
          some ("<" ++ r ++ ">" ++ (encodeAll E e (vs.take n)).s ++ "</" ++ r ++ ">",
            (encodeAll E e (vs.take n)).err) ∧
        ((encodeAll E e (vs.take n)).err = none → n = vs.length)) ∧
    (∀ K : Knobs,
      AnyXml (specEnv K)
          (.slice [.map [("a", .int 1)], .map [("b", .int 2)], .string "x"]) ["r", "e"] =
        some ("<r><a>1</a><b>2</b><e>x</e></r>", none)) := by
  refine ⟨?_, fun K => rfl⟩
  intro E vs r e
  obtain ⟨n, hn, heq, herr, _⟩ := forRange_AnyXml_body E e vs
  refine ⟨n, hn, ?_, herr⟩
  rw [AnyXml_slice]
  simp [heq, String.append_assoc]

/-- C2. Error propagation fails in the two buffer entry points. For a top-level
sequence whose only element is a mapping with two or more keys, `AnyXmlIndentByte` and
`AnyXmlIndentByteSpecial` return a nil error whatever the encoder reports for the
element, because `err` is assigned again from `buffer.Write` before it is tested;
`AnyXml` and `AnyXmlIndent` return the error the encoder reports. -/
theorem C2_byte_variants_drop_error (E : Env) (kv1 kv2 : String × Value)
    (m : List (String × Value)) (pfx indent : String) (tags : List String) :
    (AnyXmlIndentByte E (.slice [.map (kv1 :: kv2 :: m)]) pfx indent tags).map Prod.snd
        = some none ∧
    (AnyXmlIndentByteSpecial E (.slice [.map (kv1 :: kv2 :: m)]) pfx indent tags).map Prod.snd
        = some none ∧
    (AnyXmlIndent E (.slice [.map (kv1 :: kv2 :: m)]) pfx indent tags).map Prod.snd
        = some (E.mapToXmlIndent true "" (E.checkKey (elementTagOf tags))
            (.map (kv1 :: kv2 :: m)) ⟨indent, pfx, 1, 1⟩).err ∧
    (AnyXml E (.slice [.map (kv1 :: kv2 :: m)]) tags).map Prod.snd
        = some (E.mapToXmlIndent false "" (elementTagOf tags)
            (.map (kv1 :: kv2 :: m)) pretty.new).err := by
  refine ⟨?_, ?_, ?_, ?_⟩
  · simp [AnyXmlIndentByte, TypeOf, forRange, AnyXmlIndentByte.body, bufferWrite]
  · simp [AnyXmlIndentByteSpecial, TypeOf, forRange, AnyXmlIndentByteSpecial.body, bufferWrite]
  · rw [AnyXmlIndent_slice]
    simp only [forRange, AnyXmlIndent.body, List.length_cons, Option.map_some']
    split <;> simp_all
  · rw [AnyXml_slice, rootTag_select, elementTag_select]
    simp only [forRange, AnyXml.body, List.length_cons, Option.map_some']
    split <;> simp_all

/-- C3, counterexample. With the encoder of the spec the sequence `["x", T{}]`, whose
second element is of struct kind, makes `AnyXml` and `AnyXmlIndent` return the error of
the encoder together with the markup built so far, not an empty result. -/
theorem C3_counterexample :
    AnyXml (specEnv sampleKnobs) (.slice [.string "x", .struct "T"]) ["r"]
      = some ("<r><element>x</element></r>", some "unsupported nested typed value") ∧
    AnyXmlIndent (specEnv sampleKnobs) (.slice [.string "x", .struct "T"]) "" "  " ["r"]
      = some ("<r>\n  <element>x</element>\n</r>", some "unsupported nested typed value") ∧
    "<r><element>x</element></r>" ≠ "" ∧ "<r>\n  <element>x</element>\n</r>" ≠ "" := by
  refine ⟨rfl, rfl, by decide, by decide⟩

/-- C3, amended. Whenever `AnyXml` or `AnyXmlIndent` returns a non-nil error for a
top-level sequence, the bytes returned with it are not empty: they are the opening root
tag, what the encoder has written for the elements up to and including the one it
failed on, and the closing root tag. The error is the one the encoder reported for that
element. -/
theorem C3_partial_output_returned (E : Env) (vs : List Value) (pfx indent : String)
    (tags : List String) :
    (∀ b e, AnyXml E (.slice vs) tags = some (b, some e) →
      b ≠ "" ∧ ∃ n, 1 ≤ n ∧ n ≤ vs.length ∧
        (encodeAll E (elementTagOf tags) (vs.take n)).err = some e ∧
        b = "<" ++ rootTagOf E tags ++ ">"
          ++ (encodeAll E (elementTagOf tags) (vs.take n)).s ++ "</" ++ rootTagOf E tags ++ ">") ∧
    (∀ b e, AnyXmlIndent E (.slice vs) pfx indent tags = some (b, some e) →
      b ≠ "" ∧ ∃ n, 1 ≤ n ∧ n ≤ vs.length ∧
        (encodeAllIndent E pfx indent (E.checkKey (elementTagOf tags)) (vs.take n)).err = some e ∧
        b = "<" ++ E.checkKey (rootTagOf E tags) ++ ">\n"
          ++ (encodeAllIndent E pfx indent (E.checkKey (elementTagOf tags)) (vs.take n)).s
          ++ "</" ++ E.checkKey (rootTagOf E tags) ++ ">") := by
  constructor
  · intro b e h
    rw [AnyXml_slice, rootTag_select, elementTag_select] at h
    obtain ⟨n, hn, heq, _, h0⟩ := forRange_AnyXml_body E (elementTagOf tags) vs
    rw [heq] at h
    simp only [Option.some.injEq, Prod.mk.injEq] at h
    obtain ⟨hb, he⟩ := h
    have hn1 : 1 ≤ n := by
      rcases Nat.eq_zero_or_pos n with hz | hp
      · subst hz
        simp [encodeAll] at he
      · exact hp
    have hb2 : b = "<" ++ rootTagOf E tags ++ ">"
          ++ (encodeAll E (elementTagOf tags) (vs.take n)).s ++ "</" ++ rootTagOf E tags ++ ">" := by
      rw [← hb]; simp [String.append_assoc]
    refine ⟨?_, n, hn1, hn, he, hb2⟩
    rw [hb2]
    simp only [String.append_assoc]
    exact lt_append_ne_empty _ _
  · intro b e h
    rw [AnyXmlIndent_slice] at h
    obtain ⟨n, hn, heq, _, h0⟩ :=
      forRange_AnyXmlIndent_body E pfx indent (E.checkKey (elementTagOf tags)) vs
    rw [heq] at h
    simp only [Option.some.injEq, Prod.mk.injEq] at h
    obtain ⟨hb, he⟩ := h
    have hn1 : 1 ≤ n := by
      rcases Nat.eq_zero_or_pos n with hz | hp
      · subst hz
        simp [encodeAllIndent] at he
      · exact hp
    have hb2 : b = "<" ++ E.checkKey (rootTagOf E tags) ++ ">\n"
          ++ (encodeAllIndent E pfx indent (E.checkKey (elementTagOf tags)) (vs.take n)).s
          ++ "</" ++ E.checkKey (rootTagOf E tags) ++ ">" := by
      rw [← hb]; simp [String.append_assoc]
    refine ⟨?_, n, hn1, hn, he, hb2⟩
    rw [hb2]
    simp only [String.append_assoc]
    exact lt_append_ne_empty _ _

/-- C3, amended, at a concrete input: the sequence `["x", T{}]` under the encoder of
the spec. -/
theorem C3_partial_output_returned_witness :
    "<r><element>x</element></r>" ≠ "" ∧ ∃ n, 1 ≤ n ∧ n ≤ 2 ∧
      (encodeAll (specEnv sampleKnobs) "element"
          ([Value.string "x", Value.struct "T"].take n)).err
        = some "unsupported nested typed value" ∧
      "<r><element>x</element></r>" = "<" ++ "r" ++ ">"
        ++ (encodeAll (specEnv sampleKnobs) "element"
          ([Value.string "x", Value.struct "T"].take n)).s ++ "</" ++ "r" ++ ">" :=
  (C3_partial_output_returned (specEnv sampleKnobs) [.string "x", .struct "T"] "" "  " ["r"]).1
    "<r><element>x</element></r>" "unsupported nested typed value" rfl

/-- C4. The compact entry point does not sanitize the root tag. Whatever `checkKey`
is, `AnyXml` on the empty sequence under the root tag `1st-name!` writes the raw tag,
`<1st-name!></1st-name!>`, which is not `<_1st-name_></_1st-name_>`; `AnyXmlIndent`
on the same input writes what `checkKey` makes of the tag. -/
theorem C4_compact_root_tag_raw (E : Env) (pfx indent : String) :
    AnyXml E (.slice []) ["1st-name!"] = some ("<1st-name!></1st-name!>", none) ∧
    "<1st-name!></1st-name!>" ≠ "<_1st-name_></_1st-name_>" ∧
    AnyXmlIndent E (.slice []) pfx indent ["1st-name!"]
      = some ("<" ++ E.checkKey "1st-name!" ++ ">\n</" ++ E.checkKey "1st-name!" ++ ">", none) := by
  refine ⟨rfl, by decide, ?_⟩
  have h : ∀ x : String, ">\n" ++ ("</" ++ x) = ">\n</" ++ x := fun x => by
    rw [← String.append_assoc]; rfl
  rw [AnyXmlIndent_slice]
  simp [forRange, rootTagOf, String.append_assoc, h]

/-- C6. A nil top-level value makes `AnyXml` and `AnyXmlIndent` panic: the call
`reflect.TypeOf(v)` returns the nil type for the nil interface value, and `Kind` is
called on it before any branch is taken. -/
theorem C6_nil_value_panics (E : Env) (pfx indent : String) (tags : List String) :
    AnyXml E .nil tags = none ∧ AnyXmlIndent E .nil pfx indent tags = none :=
  ⟨rfl, rfl⟩

/-- C7. Empty top-level sequence. For every root tag `rt`, with or without an element
tag `et`, `AnyXml` on the empty sequence returns exactly `<rt></rt>` with a nil error,
whatever the encoder and the other collaborators are (none of them is called); under
the root tag `doc` the output is `<doc></doc>`. -/
theorem C7_empty_sequence (E : Env) (rt et : String) :
    AnyXml E (.slice []) [rt] = some ("<" ++ rt ++ "></" ++ rt ++ ">", none) ∧
    AnyXml E (.slice []) [rt, et] = some ("<" ++ rt ++ "></" ++ rt ++ ">", none) ∧
    AnyXml E (.slice []) ["doc"] = some ("<doc></doc>", none) := by
  have h : ∀ x : String, ">" ++ ("</" ++ x) = "></" ++ x := fun x => by
    rw [← String.append_assoc]; rfl
  refine ⟨?_, ?_, rfl⟩ <;>
    simp [AnyXml, TypeOf, forRange, String.append_assoc, h]

/-- C8. Tag selection. Whatever the value and the list of optional tags, each of the
four entry points uses `rootTagOf` of the list as root tag and `elementTagOf` of the list
as element tag: the root tag is the first tag when one or two tags are given and
`DefaultRootTag` otherwise, the element tag is the second tag when exactly two are given
and `element` otherwise, so no tag and three or more tags both give the two defaults.
The first four equations give the whole result of each entry point with these two tags
in the places where the code uses `rt` and `et` (the root element of a sequence and the
tag of its elements, the root tag handed to the `Map` method, the tag of a scalar); the
next four say that a call with any list is the call with these two tags. -/
theorem C8_tag_selection (E : Env) (v : Value) (pfx indent : String) (tags : List String) :
    AnyXml E v tags =
      (match v with
      | .nil => none
      | .struct name => some (E.xmlMarshal (.struct name))
      | .slice vs =>
        some ("<" ++ rootTagOf E tags ++ ">" ++
          ((forRange (AnyXml.body E (elementTagOf tags)) vs ⟨"", pretty.new, none⟩).s
            ++ "</" ++ rootTagOf E tags ++ ">"),
          (forRange (AnyXml.body E (elementTagOf tags)) vs ⟨"", pretty.new, none⟩).err)
      | .map m => some (E.Xml m (rootTagOf E tags))
      | x =>
        some ((E.mapToXmlIndent false "" (rootTagOf E tags) x pretty.new).s,
          (E.mapToXmlIndent false "" (rootTagOf E tags) x pretty.new).err)) ∧
    AnyXmlIndent E v pfx indent tags =
      (match v with
      | .nil => none
      | .struct name => some (E.xmlMarshalIndent (.struct name) pfx indent)
      | .slice vs =>
        some ("<" ++ E.checkKey (rootTagOf E tags) ++ ">\n" ++
          ((forRange (AnyXmlIndent.body E (E.checkKey (elementTagOf tags))) vs
              ⟨"", ⟨indent, pfx, 1, 0⟩, none⟩).s
            ++ "</" ++ E.checkKey (rootTagOf E tags) ++ ">"),
          (forRange (AnyXmlIndent.body E (E.checkKey (elementTagOf tags))) vs
              ⟨"", ⟨indent, pfx, 1, 0⟩, none⟩).err)
      | .map m => some (E.XmlIndent m pfx indent (E.checkKey (rootTagOf E tags)))
      | x =>
        some ((E.mapToXmlIndent true "" (E.checkKey (rootTagOf E tags)) x
            ⟨indent, pfx, 0, 0⟩).s,
          (E.mapToXmlIndent true "" (E.checkKey (rootTagOf E tags)) x
            ⟨indent, pfx, 0, 0⟩).err)) ∧
    AnyXmlIndentByte E v pfx indent tags =
      (match v with
      | .nil => none
      | .struct name => some (E.xmlMarshalIndent (.struct name) pfx indent)
      | .slice vs =>
        some ((forRange (AnyXmlIndentByte.body E (E.checkKey (elementTagOf tags))) vs
              ⟨"" ++ ("<" ++ E.checkKey (E.checkKey (rootTagOf E tags)) ++ ">\n"),
                ⟨indent, pfx, 1, 0⟩, none⟩).s
            ++ ("</" ++ E.checkKey (rootTagOf E tags) ++ ">"),
          (forRange (AnyXmlIndentByte.body E (E.checkKey (elementTagOf tags))) vs
              ⟨"" ++ ("<" ++ E.checkKey (E.checkKey (rootTagOf E tags)) ++ ">\n"),
                ⟨indent, pfx, 1, 0⟩, none⟩).err)
      | .map m => some (E.XmlIndentByte m pfx indent (E.checkKey (rootTagOf E tags)))
      | x =>
        some ((E.mapToXmlIndentByte true "" (E.checkKey (rootTagOf E tags)) x
            ⟨indent, pfx, 0, 0⟩).s,
          (E.mapToXmlIndentByte true "" (E.checkKey (rootTagOf E tags)) x
            ⟨indent, pfx, 0, 0⟩).err)) ∧
    AnyXmlIndentByteSpecial E v pfx indent tags =
      (match v with
      | .nil => none
      | .struct name => some (E.xmlMarshalIndent (.struct name) pfx indent)
      | .slice vs =>
        some ((forRange (AnyXmlIndentByteSpecial.body E (E.checkKey (elementTagOf tags))) vs
              ⟨"" ++ ("<" ++ E.checkKey (E.checkKey (rootTagOf E tags)) ++ ">\n"),
                ⟨indent, pfx, 1, 0⟩, none⟩).s
            ++ ("</" ++ E.checkKey (rootTagOf E tags) ++ ">"),
          (forRange (AnyXmlIndentByteSpecial.body E (E.checkKey (elementTagOf tags))) vs
              ⟨"" ++ ("<" ++ E.checkKey (E.checkKey (rootTagOf E tags)) ++ ">\n"),
                ⟨indent, pfx, 1, 0⟩, none⟩).err)
      | .map m => some (E.XmlIndentByteSpecial m pfx indent (E.checkKey (rootTagOf E tags)))
      | x =>
        some ((E.mapToXmlIndentByteSpecial true "" (E.checkKey (rootTagOf E tags)) x
            ⟨indent, pfx, 0, 0⟩ true).s,
          (E.mapToXmlIndentByteSpecial true "" (E.checkKey (rootTagOf E tags)) x
            ⟨indent, pfx, 0, 0⟩ true).err)) ∧
    AnyXml E v tags = AnyXml E v [rootTagOf E tags, elementTagOf tags] ∧
    AnyXmlIndent E v pfx indent tags
      = AnyXmlIndent E v pfx indent [rootTagOf E tags, elementTagOf tags] ∧
    AnyXmlIndentByte E v pfx indent tags
      = AnyXmlIndentByte E v pfx indent [rootTagOf E tags, elementTagOf tags] ∧
    AnyXmlIndentByteSpecial E v pfx indent tags
      = AnyXmlIndentByteSpecial E v pfx indent [rootTagOf E tags, elementTagOf tags] ∧
    (rootTagOf E [] = E.DefaultRootTag ∧ elementTagOf [] = "element") ∧
    (∀ a, rootTagOf E [a] = a ∧ elementTagOf [a] = "element") ∧
    (∀ a b, rootTagOf E [a, b] = a ∧ elementTagOf [a, b] = b) ∧
    (∀ a b c rest, rootTagOf E (a :: b :: c :: rest) = E.DefaultRootTag ∧
      elementTagOf (a :: b :: c :: rest) = "element") := by
  have hr := rootTag_select E tags
  have he := elementTag_select tags
  refine ⟨?_, ?_, ?_, ?_, ?_, ?_, ?_, ?_, ⟨rfl, rfl⟩, fun a => ⟨rfl, rfl⟩,
    fun a b => ⟨rfl, rfl⟩, fun a b c rest => ⟨rfl, rfl⟩⟩
  · cases v <;> first | rfl | (simp only [← hr, ← he]; rfl)
  · cases v <;> first | rfl | (simp only [← hr, ← he]; rfl)
  · cases v <;> first | rfl | (simp only [← hr, ← he]; rfl)
  · cases v <;> first | rfl | (simp only [← hr, ← he]; rfl)
  · rcases tags with _ | ⟨a, _ | ⟨b, _ | ⟨c, rest⟩⟩⟩ <;>
      simp [AnyXml, rootTagOf, elementTagOf, DefaultElementTag]
  · rcases tags with _ | ⟨a, _ | ⟨b, _ | ⟨c, rest⟩⟩⟩ <;>
      simp [AnyXmlIndent, rootTagOf, elementTagOf, DefaultElementTag]
  · rcases tags with _ | ⟨a, _ | ⟨b, _ | ⟨c, rest⟩⟩⟩ <;>
      simp [AnyXmlIndentByte, rootTagOf, elementTagOf, DefaultElementTag]
  · rcases tags with _ | ⟨a, _ | ⟨b, _ | ⟨c, rest⟩⟩⟩ <;>
      simp [AnyXmlIndentByteSpecial, rootTagOf, elementTagOf, DefaultElementTag]

/-- C9. The line of the opening root tag does not begin with the line padding. For
every top-level sequence, indent and tags, and whatever the encoder does, the output of
`AnyXmlIndent` called with the padding `>>` starts with `<`, the opening root tag, so
that not every line of it begins with `>>`. -/
theorem C9_root_line_lacks_padding (E : Env) (vs : List Value) (indent : String)
    (tags : List String) :
    ∃ out err, AnyXmlIndent E (.slice vs) ">>" indent tags = some (out, err) ∧
      (∃ rest, out = "<" ++ rest) ∧ ¬ everyLineBegins ">>" out := by
  refine ⟨_, _, AnyXmlIndent_slice E vs ">>" indent tags, ⟨_, by rw [String.append_assoc,
    String.append_assoc]⟩, ?_⟩
  intro h
  rw [String.append_assoc, String.append_assoc] at h
  obtain ⟨l, ls, hl⟩ := linesOf_cons_head '<'
    ((E.checkKey (rootTagOf E tags) ++ (">\n" ++
      ((forRange (AnyXmlIndent.body E (E.checkKey (elementTagOf tags))) vs
          ⟨"", ⟨indent, ">>", 1, 0⟩, none⟩).s ++ "</" ++ E.checkKey (rootTagOf E tags)
        ++ ">"))).toList) (by decide)
  have h2 := h ('<' :: l) (by
    show '<' :: l ∈ linesOf (String.toList ("<" ++ _))
    simp only [String.toList, String.data_append] at hl ⊢
    rw [List.singleton_append, hl]
    exact List.mem_cons_self _ _)
  obtain ⟨t, ht⟩ := h2
  have h3 : ">>".toList = ['>', '>'] := rfl
  rw [h3] at ht
  simp only [List.cons_append, List.cons.injEq] at ht
  exact absurd ht.1 (by decide)

/-- C10. Pretty printing of a top-level sequence. For every sequence `vs`, padding,
indent, root tag `rt` and element tag `et`, `AnyXmlIndent` returns `<`, the sanitized
`rt` and `>` with a line feed, then what the encoder has written for the elements taken
in their order, then the closing tag of the sanitized `rt`; a one-key mapping `{k: x}`
is encoded as `x` under the sanitized `k` and every other element under the sanitized
`et` (a mapping with other than one key being followed by a line feed); all the elements
are encoded unless the encoder reports an error, which stops the loop and is returned.
With the encoder of the spec the documented input
`[{"somekey":"somevalue"}, "string", 3.14159265, true]` with empty padding, an indent of
two spaces and the root tag `mydoc` gives the six documented lines. -/
theorem C10_pretty_sequence :
    (∀ (E : Env) (vs : List Value) (pfx indent rt et : String),
      ∃ n, n ≤ vs.length ∧
        AnyXmlIndent E (.slice vs) pfx indent [rt, et] =
          some ("<" ++ E.checkKey rt ++ ">\n"
              ++ (encodeAllIndent E pfx indent (E.checkKey et) (vs.take n)).s
              ++ "</" ++ E.checkKey rt ++ ">",
            (encodeAllIndent E pfx indent (E.checkKey et) (vs.take n)).err) ∧
        ((encodeAllIndent E pfx indent (E.checkKey et) (vs.take n)).err = none
          → n = vs.length)) ∧
    (∀ K : Knobs,
      AnyXmlIndent (specEnv K)
          (.slice [.map [("somekey", .string "somevalue")], .string "string",
            .float64 "3.14159265", .bool true]) "" "  " ["mydoc"] =
        some ("<mydoc>\n  <somekey>somevalue</somekey>\n  <element>string</element>\n"
          ++ "  <element>3.14159265</element>\n  <element>true</element>\n</mydoc>", none)) := by
  refine ⟨?_, fun K => rfl⟩
  intro E vs pfx indent rt et
  obtain ⟨n, hn, heq, herr, _⟩ := forRange_AnyXmlIndent_body E pfx indent (E.checkKey et) vs
  refine ⟨n, hn, ?_, herr⟩
  rw [AnyXmlIndent_slice]
  simp [heq, String.append_assoc, rootTagOf, elementTagOf]

/-- C11. Delegation of a top-level value of struct kind. `AnyXml` returns exactly what
the native marshaller returns for the value, and `AnyXmlIndent` exactly what the native
indenting marshaller returns for the value, the line padding and the indent; neither
result depends on the tags, and neither changes when the recursive encoder and the
sanitizer are replaced by any others, so that these are not called. -/
theorem C11_struct_delegation (E : Env) (name pfx indent : String) (tags : List String) :
    AnyXml E (.struct name) tags = some (E.xmlMarshal (.struct name)) ∧
    AnyXmlIndent E (.struct name) pfx indent tags
      = some (E.xmlMarshalIndent (.struct name) pfx indent) ∧
    (∀ (ck : String → String) (enc : Bool → String → String → Value → pretty → Enc),
      AnyXml { E with checkKey := ck, mapToXmlIndent := enc } (.struct name) tags
        = AnyXml E (.struct name) tags ∧
      AnyXmlIndent { E with checkKey := ck, mapToXmlIndent := enc } (.struct name) pfx indent tags
        = AnyXmlIndent E (.struct name) pfx indent tags) :=
  ⟨rfl, rfl, fun _ _ => ⟨rfl, rfl⟩⟩

/-- C12. Abort at the first failing element. If, in the run of `AnyXml` on a top-level
sequence, the encoder reports no error for the elements before index `i` and the error
`e` for the element at index `i`, then `AnyXml` returns the error `e` with the opening
root tag, what the encoder has written for the elements up to index `i`, and the closing
root tag; the elements after index `i` are not passed to the encoder, the result being
the same whatever follows the element at index `i`. -/
theorem C12_abort_at_first_failure (E : Env) (vs : List Value) (tags : List String) (i : Nat)
    (e : String) (hi : i < vs.length)
    (hok : ∀ j, j < i → (encodeAll E (elementTagOf tags) (vs.take (j + 1))).err = none)
    (hfail : (encodeAll E (elementTagOf tags) (vs.take (i + 1))).err = some e) :
    AnyXml E (.slice vs) tags =
      some ("<" ++ rootTagOf E tags ++ ">"
          ++ (encodeAll E (elementTagOf tags) (vs.take (i + 1))).s
          ++ "</" ++ rootTagOf E tags ++ ">", some e) ∧
    (∀ rest, AnyXml E (.slice (vs.take (i + 1) ++ rest)) tags = AnyXml E (.slice vs) tags) := by
  have key : ∀ l : List Value, i < l.length → l.take (i + 1) = vs.take (i + 1) →
      forRange (AnyXml.body E (elementTagOf tags)) l ⟨"", pretty.new, none⟩
        = encodeAll E (elementTagOf tags) (vs.take (i + 1)) := by
    intro l hl htake
    rw [← encodeAll_eq_foldl_body, ← htake]
    apply forRange_stop _ l _ i hl
    · intro j hj
      have h1 : (l.take (j + 1)) = vs.take (j + 1) := by
        have := congrArg (List.take (j + 1)) htake
        simpa [List.take_take, Nat.min_eq_left (by omega : j + 1 ≤ i + 1)] using this
      rw [h1, encodeAll_eq_foldl_body]
      exact hok j hj
    · rw [htake, encodeAll_eq_foldl_body, hfail]
      simp
  have main : ∀ l : List Value, i < l.length → l.take (i + 1) = vs.take (i + 1) →
      AnyXml E (.slice l) tags =
        some ("<" ++ rootTagOf E tags ++ ">"
          ++ (encodeAll E (elementTagOf tags) (vs.take (i + 1))).s
          ++ "</" ++ rootTagOf E tags ++ ">", some e) := by
    intro l hl htake
    rw [AnyXml_slice, rootTag_select, elementTag_select, key l hl htake, hfail]
    simp [String.append_assoc]
  refine ⟨main vs hi rfl, fun rest => ?_⟩
  rw [main vs hi rfl]
  apply main
  · simp only [List.length_append, List.length_take]
    omega
  · rw [List.take_append_of_le_length (by simp only [List.length_take]; omega),
      List.take_take]
    simp

/-- C12 at a concrete input: the sequence `["x", T{}, "y"]` under the encoder of the
spec, which fails on the element of struct kind at index 1. -/
theorem C12_abort_at_first_failure_witness :
    AnyXml (specEnv sampleKnobs) (.slice [.string "x", .struct "T", .string "y"]) ["r"] =
      some ("<" ++ rootTagOf (specEnv sampleKnobs) ["r"] ++ ">"
          ++ (encodeAll (specEnv sampleKnobs) (elementTagOf ["r"])
              ([Value.string "x", Value.struct "T", Value.string "y"].take (1 + 1))).s
          ++ "</" ++ rootTagOf (specEnv sampleKnobs) ["r"] ++ ">",
        some "unsupported nested typed value") ∧
    (∀ rest, AnyXml (specEnv sampleKnobs)
        (.slice ([Value.string "x", Value.struct "T", Value.string "y"].take (1 + 1) ++ rest)) ["r"]
      = AnyXml (specEnv sampleKnobs) (.slice [.string "x", .struct "T", .string "y"]) ["r"]) :=
  C12_abort_at_first_failure (specEnv sampleKnobs) [.string "x", .struct "T", .string "y"] ["r"]
    1 "unsupported nested typed value" (by decide)
    (by
      intro j hj
      have hj0 : j = 0 := by omega
      subst hj0
      rfl)
    rfl

/-- C13. Matching root tags under repeated sanitization. The Name Sanitizer of the
spec, with a fallback name that it leaves unchanged, gives the same name when applied
twice as when applied once, for every string. `AnyXmlIndentByte` and
`AnyXmlIndentByteSpecial` write the root tag sanitized twice in the opening root tag and
sanitized once in the closing one: whatever the sanitizer, for an encoder that only
appends to the buffer; with the sanitizer and the encoder of the spec the two names are
the same name, for every root tag and every top-level sequence. -/
theorem C13_root_tags_match (K : Knobs) (hK : sanitize K.unnamed K.unnamed = K.unnamed) :
    (∀ s, sanitize K.unnamed (sanitize K.unnamed s) = sanitize K.unnamed s) ∧
    (∀ (E : Env) (vs : List Value) (pfx indent : String) (tags : List String),
      ((∀ d b key value p, ∃ text, (E.mapToXmlIndentByte d b key value p).s = b ++ text) →
        ∃ body err, AnyXmlIndentByte E (.slice vs) pfx indent tags =
          some ("<" ++ E.checkKey (E.checkKey (rootTagOf E tags)) ++ ">\n" ++ body
            ++ "</" ++ E.checkKey (rootTagOf E tags) ++ ">", err)) ∧
      ((∀ d b key value p sp, ∃ text,
          (E.mapToXmlIndentByteSpecial d b key value p sp).s = b ++ text) →
        ∃ body err, AnyXmlIndentByteSpecial E (.slice vs) pfx indent tags =
          some ("<" ++ E.checkKey (E.checkKey (rootTagOf E tags)) ++ ">\n" ++ body
            ++ "</" ++ E.checkKey (rootTagOf E tags) ++ ">", err))) ∧
    (∀ (vs : List Value) (pfx indent : String) (tags : List String),
      (∃ body err, AnyXmlIndentByte (specEnv K) (.slice vs) pfx indent tags =
        some ("<" ++ sanitize K.unnamed (rootTagOf (specEnv K) tags) ++ ">\n" ++ body
          ++ "</" ++ sanitize K.unnamed (rootTagOf (specEnv K) tags) ++ ">", err)) ∧
      (∃ body err, AnyXmlIndentByteSpecial (specEnv K) (.slice vs) pfx indent tags =
        some ("<" ++ sanitize K.unnamed (rootTagOf (specEnv K) tags) ++ ">\n" ++ body
          ++ "</" ++ sanitize K.unnamed (rootTagOf (specEnv K) tags) ++ ">", err))) := by
  have hcode : ∀ (E : Env) (vs : List Value) (pfx indent : String) (tags : List String),
      ((∀ d b key value p, ∃ text, (E.mapToXmlIndentByte d b key value p).s = b ++ text) →
        ∃ body err, AnyXmlIndentByte E (.slice vs) pfx indent tags =
          some ("<" ++ E.checkKey (E.checkKey (rootTagOf E tags)) ++ ">\n" ++ body
            ++ "</" ++ E.checkKey (rootTagOf E tags) ++ ">", err)) ∧
      ((∀ d b key value p sp, ∃ text,
          (E.mapToXmlIndentByteSpecial d b key value p sp).s = b ++ text) →
        ∃ body err, AnyXmlIndentByteSpecial E (.slice vs) pfx indent tags =
          some ("<" ++ E.checkKey (E.checkKey (rootTagOf E tags)) ++ ">\n" ++ body
            ++ "</" ++ E.checkKey (rootTagOf E tags) ++ ">", err)) := by
    intro E vs pfx indent tags
    constructor
    · intro happ
      obtain ⟨text, ht⟩ := forRange_appends _
        (AnyXmlIndentByte_body_appends E (E.checkKey (elementTagOf tags)) happ) vs
        ⟨"" ++ ("<" ++ E.checkKey (E.checkKey (rootTagOf E tags)) ++ ">\n"),
          ⟨indent, pfx, 1, 0⟩, none⟩
      refine ⟨text, (forRange (AnyXmlIndentByte.body E (E.checkKey (elementTagOf tags))) vs
        ⟨"" ++ ("<" ++ E.checkKey (E.checkKey (rootTagOf E tags)) ++ ">\n"),
          ⟨indent, pfx, 1, 0⟩, none⟩).err, ?_⟩
      rw [AnyXmlIndentByte_slice, ht]
      simp [String.append_assoc]
    · intro happ
      obtain ⟨text, ht⟩ := forRange_appends _
        (AnyXmlIndentByteSpecial_body_appends E (E.checkKey (elementTagOf tags)) happ) vs
        ⟨"" ++ ("<" ++ E.checkKey (E.checkKey (rootTagOf E tags)) ++ ">\n"),
          ⟨indent, pfx, 1, 0⟩, none⟩
      refine ⟨text, (forRange (AnyXmlIndentByteSpecial.body E (E.checkKey (elementTagOf tags))) vs
        ⟨"" ++ ("<" ++ E.checkKey (E.checkKey (rootTagOf E tags)) ++ ">\n"),
          ⟨indent, pfx, 1, 0⟩, none⟩).err, ?_⟩
      rw [AnyXmlIndentByteSpecial_slice, ht]
      simp [String.append_assoc]
  have hidem := sanitize_idempotent K.unnamed hK
  refine ⟨hidem, hcode, ?_⟩
  intro vs pfx indent tags
  have h := hcode (specEnv K) vs pfx indent tags
  have e : (specEnv K).checkKey = sanitize K.unnamed := rfl
  rw [e, hidem] at h
  exact ⟨h.1 (fun d b key value p => ⟨_, rfl⟩), h.2 (fun d b key value p sp => ⟨_, rfl⟩)⟩

/-- C13 at a concrete input: the fallback name `_`, which the sanitizer leaves
unchanged, and the name `1st-name!`. -/
theorem C13_root_tags_match_witness :
    sanitize sampleKnobs.unnamed (sanitize sampleKnobs.unnamed "1st-name!")
      = sanitize sampleKnobs.unnamed "1st-name!" :=
  (C13_root_tags_match sampleKnobs (by decide)).1 "1st-name!"

/-- C14. The buffer entry point refines the string entry point. For a top-level value
that is not a mapping (a sequence or a scalar), if the buffer encoder writes what the
string encoder writes (`AppendsSame`), the sanitizer leaves the sanitized root tag
unchanged, and `AnyXmlIndent` returns the bytes `b` with a nil error (no element fails
to encode), then `AnyXmlIndentByte` returns the same bytes `b` with a nil error. -/
theorem C14_byte_refines_string (E : Env) (v : Value) (pfx indent : String)
    (tags : List String) (b : String)
    (hv : ∀ m, v ≠ Value.map m)
    (hsame : AppendsSame E)
    (hidem : E.checkKey (E.checkKey (rootTagOf E tags)) = E.checkKey (rootTagOf E tags))
    (hrun : AnyXmlIndent E v pfx indent tags = some (b, none)) :
    AnyXmlIndentByte E v pfx indent tags = some (b, none) := by
  have scalar : (∀ vs, v ≠ Value.slice vs) → (∀ n, v ≠ Value.struct n) → v ≠ Value.nil →
      AnyXmlIndentByte E v pfx indent tags = AnyXmlIndent E v pfx indent tags := by
    intro h1 h2 h3
    obtain ⟨text, t1, t2, _, t4⟩ := hsame true "" "" (E.checkKey (rootTagOf E tags)) v
      ⟨indent, pfx, 0, 0⟩
    rw [← rootTag_select E tags] at t1 t2 t4
    have pair : ∀ {rb r : Enc}, rb.s = "" ++ text → r.s = "" ++ text → rb.err = r.err →
        (some (rb.s, rb.err) : Option (String × GoError)) = some (r.s, r.err) :=
      fun h1 h2 h3 => by rw [h1, h2, h3]
    cases v with
    | nil => exact absurd rfl h3
    | slice vs => exact absurd rfl (h1 vs)
    | struct n => exact absurd rfl (h2 n)
    | map m => exact absurd rfl (hv m)
    | bool x =>
      exact pair t2 t1 t4
    | int x =>
      exact pair t2 t1 t4
    | float64 x =>
      exact pair t2 t1 t4
    | string x =>
      exact pair t2 t1 t4
  cases v with
  | nil => exact absurd hrun (by simp [AnyXmlIndent, TypeOf])
  | map m => exact absurd rfl (hv m)
  | struct n => exact hrun
  | slice vs =>
    rw [AnyXmlIndent_slice] at hrun
    simp only [Option.some.injEq, Prod.mk.injEq] at hrun
    obtain ⟨hb, he⟩ := hrun
    obtain ⟨h1, h2⟩ := forRange_byte_refines E hsame (E.checkKey (elementTagOf tags))
      ("" ++ ("<" ++ E.checkKey (E.checkKey (rootTagOf E tags)) ++ ">\n")) vs
      ⟨"", ⟨indent, pfx, 1, 0⟩, none⟩
      ⟨"" ++ ("<" ++ E.checkKey (E.checkKey (rootTagOf E tags)) ++ ">\n"),
        ⟨indent, pfx, 1, 0⟩, none⟩ (by simp) rfl rfl he
    rw [AnyXmlIndentByte_slice, h1, h2, hidem, ← hb]
    simp [String.append_assoc]
  | bool x =>
    rw [scalar (fun _ h => by cases h) (fun _ h => by cases h) (fun h => by cases h)]
    exact hrun
  | int x =>
    rw [scalar (fun _ h => by cases h) (fun _ h => by cases h) (fun h => by cases h)]
    exact hrun
  | float64 x =>
    rw [scalar (fun _ h => by cases h) (fun _ h => by cases h) (fun h => by cases h)]
    exact hrun
  | string x =>
    rw [scalar (fun _ h => by cases h) (fun _ h => by cases h) (fun h => by cases h)]
    exact hrun

/-- C14 at a concrete input: the sequence `[{"a":1}, {"b":2,"c":3}, "x"]` under the
tags `r` and `e`, with no line padding and an indent of two spaces, under the encoder
of the spec. -/
theorem C14_byte_refines_string_witness :
    AnyXmlIndentByte (specEnv sampleKnobs)
        (.slice [.map [("a", .int 1)], .map [("b", .int 2), ("c", .int 3)], .string "x"])
        "" "  " ["r", "e"]
      = some ("<r>\n  <a>1</a>\n  <e>\n    <b>2</b>\n    <c>3</c>\n  </e>\n  <e>x</e>\n</r>",
          none) :=
  C14_byte_refines_string (specEnv sampleKnobs)
    (.slice [.map [("a", .int 1)], .map [("b", .int 2), ("c", .int 3)], .string "x"])
    "" "  " ["r", "e"] _ (fun _ h => by cases h) (specEnv_appendsSame sampleKnobs)
    (by decide) rfl

end Mxj
